import Mathlib

/-!
Verification of the AI Image Organizer pipeline (`app.py`).

This file is a shallow embedding, in Lean 4, of the core job-processing
pipeline of the repository: filename sanitization (`_describe_image`'s
post-processing and `_generate_filename`), image-file discovery, similarity
grouping (`_group_similar_images`), file organization (`_organize_files`)
and the background job driver (`_process_job`).  Strings are modelled over
Lean `Char` with the ASCII reading of Python's `\w` and `\s` character
classes; floating-point similarity values are modelled over `ℝ`, progress
percentages over `ℚ`; the external captioning and embedding backends are
parameters of the embedding, as are per-image processing failures.
-/

/-! ## String primitives

Structural re-implementations (over `List Char`) of the string operations
the source uses, so that every definition evaluates by kernel reduction. -/

/-- Split a character list at a separator predicate (keeping empty parts,
like `str.split(sep)` for a single separator). -/
def splitPred (p : Char → Bool) : List Char → List (List Char)
  | [] => [[]]
  | c :: tl =>
    let r := splitPred p tl
    if p c then [] :: r else (c :: r.headD []) :: r.tail

/-- `sep.join(parts)` over character lists. -/
def joinSep (sep : Char) : List (List Char) → List Char
  | [] => []
  | [x] => x
  | x :: y :: tl => x ++ sep :: joinSep sep (y :: tl)

/-- ASCII `str.lower()`. -/
def strToLower (s : String) : String := ⟨s.data.map Char.toLower⟩

/-- ASCII `str.upper()`. -/
def strToUpper (s : String) : String := ⟨s.data.map Char.toUpper⟩

/-- `str.endswith(suffix)`. -/
def strEndsWith (s suffix : String) : Bool := suffix.data.isSuffixOf s.data

/-- Lexicographic `a <= b` on code points — Python string comparison. -/
def lexLe : List Char → List Char → Bool
  | [], _ => true
  | _ :: _, [] => false
  | x :: xs, y :: ys => if x < y then true else if y < x then false else lexLe xs ys

/-! ## Path helpers (models of `pathlib.Path.name` / `Path.suffix`) -/

/-- The final path component, as in `pathlib.Path(p).name`. -/
def fileBase (p : String) : String :=
  ⟨(splitPred (fun c => c = '/') p.data).getLastD []⟩

/-- Model of `pathlib.Path(p).suffix`: the extension of the final component,
including the dot, or `""` when the last dot is absent, leading or trailing
(pathlib requires `0 < i < len(name) - 1` for the dot position `i`). -/
def pathSuffix (p : String) : String :=
  let cs := (fileBase p).data
  let r := cs.reverse.indexOf '.'
  let i := cs.length - 1 - r
  if 0 < i ∧ i + 1 < cs.length then ⟨cs.drop i⟩ else ""

/-! ## FilenameSanitizer

`_describe_image` post-processes the caption (lowercase, drop quotes,
`re.sub(r'[^\w\s-]', '')`, `re.sub(r'\s+', ' ')`, strip) and
`_generate_filename` turns the cleaned description into a file name.
`\w` is modelled as ASCII `[A-Za-z0-9_]`, `\s` as ASCII whitespace. -/

/-- ASCII model of Python's `\w` regex class. -/
def pyWordChar (c : Char) : Bool :=
  c.isAlpha || c.isDigit || c = '_'

/-- `re.sub(r'\s+', ' ', s)`: collapse each maximal whitespace run to one
space. `prevWs` records whether the previous character was whitespace. -/
def collapseWsAux (prevWs : Bool) : List Char → List Char
  | [] => []
  | c :: tl =>
    if c.isWhitespace then
      if prevWs then collapseWsAux true tl else ' ' :: collapseWsAux true tl
    else c :: collapseWsAux false tl

def collapseWs (l : List Char) : List Char := collapseWsAux false l

/-- `re.sub(r'_+', '_', s)`: collapse each maximal underscore run. -/
def collapseUsAux (prevUs : Bool) : List Char → List Char
  | [] => []
  | c :: tl =>
    if c = '_' then
      if prevUs then collapseUsAux true tl else '_' :: collapseUsAux true tl
    else c :: collapseUsAux false tl

def collapseUs (l : List Char) : List Char := collapseUsAux false l

/-- `str.strip()` on a character list: drop leading and trailing whitespace. -/
def stripWs (l : List Char) : List Char :=
  ((l.dropWhile Char.isWhitespace).reverse.dropWhile Char.isWhitespace).reverse

/-- The caption clean-up performed by `_describe_image` on the success path:
`strip`, `lower`, drop `"` and `'`, delete characters outside `[\w\s-]`,
collapse whitespace runs, final `strip`. -/
def cleanDescription (s : String) : String :=
  let l1 := (s.data.dropWhile Char.isWhitespace).reverse.dropWhile Char.isWhitespace |>.reverse
  let l2 := l1.map Char.toLower
  let l3 := l2.filter (fun c => c ≠ '"' && c ≠ '\'')
  let l4 := l3.filter (fun c => pyWordChar c || c.isWhitespace || c = '-')
  ⟨stripWs (collapseWs l4)⟩

/-- The base (extension-less) part computed by `_generate_filename`:
`description.replace(' ', '_')`, `re.sub(r'[^\w\-_]', '')`,
`re.sub(r'_+', '_')`, truncation to 100 characters, `rstrip('_')`. -/
def fnBase (description : String) : String :=
  let l1 := description.data.map (fun c => if c = ' ' then '_' else c)
  let l2 := l1.filter (fun c => pyWordChar c || c = '-')
  let l3 := collapseUs l2
  let l4 := l3.take 100
  ⟨(l4.reverse.dropWhile (· = '_')).reverse⟩

/-- `_generate_filename(description, original_path)`; note that the source
lowercases the extension: `ext = Path(original_path).suffix.lower()`. -/
def generateFilename (description originalPath : String) : String :=
  fnBase description ++ strToLower (pathSuffix originalPath)

/-- The full caption-to-filename pipeline: `_describe_image` clean-up
followed by `_generate_filename`. -/
def sanitizeFilename (rawDescription originalPath : String) : String :=
  generateFilename (cleanDescription rawDescription) originalPath

/-- The sanitization rule as the specification words it (claim C4):
lowercase, strip quotes, delete characters outside `[A-Za-z0-9_\- ]`,
collapse whitespace runs, spaces to underscores, collapse underscores,
truncate to 100, strip trailing underscores, `unknown_image` fallback for an
empty base, and append the original extension *preserving its case*. -/
def sanitizeSpecC4 (description originalPath : String) : String :=
  let l1 := description.data.map Char.toLower
  let l2 := l1.filter (fun c => c ≠ '"' && c ≠ '\'')
  let l3 := l2.filter (fun c => c.isAlpha || c.isDigit || c = '_' || c = '-' || c = ' ')
  let l4 := collapseWs l3
  let l5 := l4.map (fun c => if c = ' ' then '_' else c)
  let l6 := collapseUs l5
  let l7 := ((l6.take 100).reverse.dropWhile (· = '_')).reverse
  if l7 = [] then "unknown_image" else (⟨l7⟩ : String) ++ pathSuffix originalPath

/-! ## File discovery (`_process_job`, lines 77-87)

The source iterates the extension set and calls `glob(f"**/*{ext}")` and
`glob(f"**/*{ext.upper()}")`; a recursive glob `**/*.jpg` selects exactly
the files whose path ends with `.jpg`.  The model receives the recursive
listing of the input folder and keeps the files matched by some pattern. -/

def imageExtensions : List String :=
  [".jpg", ".jpeg", ".png", ".bmp", ".tiff", ".webp"]

/-- Files selected by the discovery loop, given all files under the input
folder.  For each extension the lowercase glob then the uppercase glob
extend the list, mirroring the two `image_files.extend` calls. -/
def discoverImages (allFiles : List String) : List String :=
  imageExtensions.flatMap (fun ext =>
    allFiles.filter (fun f => strEndsWith f ext) ++
    allFiles.filter (fun f => strEndsWith f (strToUpper ext)))

/-! ## Data model: one processed image (`image_info` dict in `_process_job`) -/

structure ImageInfo where
  originalPath : String
  originalName : String
  description : String
  newFilename : String
  width : ℕ
  height : ℕ
  sizeBytes : ℕ
  deriving DecidableEq

/-! ## SimilarityGrouper: clustering loop of `_group_similar_images`

The loop state is the set `used` of claimed indices.  The outer loop scans
`enumerate(images)`; an unclaimed index `i` seeds a cluster and the inner
loop scans all of `enumerate(images)` again, adding every still-unclaimed
`j` whose similarity with the *seed* `i` passes the threshold.  The
similarity test is abstracted into `sim : ℕ → ℕ → Bool` (instantiated with
the cosine test below); records are carried together with their index, as
`enumerate` does. -/

/-- The inner `for j, other_img in enumerate(images)` loop: `acc` is
`current_group`, `used` the claimed set, `i` the seed index. -/
def innerScan (sim : ℕ → ℕ → Bool) (i : ℕ) :
    List (ℕ × ImageInfo) → List ℕ → List (ℕ × ImageInfo) →
    List (ℕ × ImageInfo) × List ℕ
  | [], used, acc => (acc, used)
  | (j, x) :: tl, used, acc =>
    if j ∈ used then innerScan sim i tl used acc
    else if sim i j then innerScan sim i tl (j :: used) (acc ++ [(j, x)])
    else innerScan sim i tl used acc

/-- The outer `for i, img in enumerate(images)` loop; `all` is the full
enumerated list (scanned afresh by each inner loop), `groups` the clusters
found so far. -/
def outerScan (sim : ℕ → ℕ → Bool) (all : List (ℕ × ImageInfo)) :
    List (ℕ × ImageInfo) → List ℕ → List (List (ℕ × ImageInfo)) →
    List (List (ℕ × ImageInfo))
  | [], _, groups => groups
  | (i, x) :: tl, used, groups =>
    if i ∈ used then outerScan sim all tl used groups
    else
      let r := innerScan sim i all (i :: used) [(i, x)]
      outerScan sim all tl r.2 (groups ++ [r.1])

/-- The clusters (`groups` list) computed by `_group_similar_images`,
keeping each record paired with its index. -/
def findGroups (images : List ImageInfo) (sim : ℕ → ℕ → Bool) :
    List (List (ℕ × ImageInfo)) :=
  outerScan sim images.enum images.enum [] []

/-- Star clustering as the specification words it (claim C2): walk the
records in order; the head seeds a cluster that absorbs exactly the later
unclaimed records similar to the *seed*; recurse on the rest. -/
def starSpec (sim : ℕ → ℕ → Bool) : List (ℕ × ImageInfo) → List (List (ℕ × ImageInfo))
  | [] => []
  | p :: rest =>
    (p :: rest.filter (fun q => sim p.1 q.1)) ::
      starSpec sim (rest.filter (fun q => !sim p.1 q.1))
termination_by l => l.length
decreasing_by
  simp only [List.length_cons]
  exact Nat.lt_succ_of_le (List.length_filter_le _ _)

/-! ### Cosine similarity (`np.dot(a, b) / (norm(a) * norm(b))`) -/

/-- `np.dot` on vectors. -/
def dotList (a b : List ℝ) : ℝ := (List.zipWith (· * ·) a b).sum

/-- `np.linalg.norm`. -/
noncomputable def normList (v : List ℝ) : ℝ := Real.sqrt (dotList v v)

/-- Cosine similarity exactly as computed in `_group_similar_images`. -/
noncomputable def cosineSim (a b : List ℝ) : ℝ :=
  dotList a b / (normList a * normList b)

/-- The `similarity >= threshold` test, over the embeddings of the records'
descriptions (`emb i` models `embeddings[i]`). -/
noncomputable def cosB (emb : ℕ → List ℝ) (threshold : ℝ) : ℕ → ℕ → Bool :=
  fun i j => decide (threshold ≤ cosineSim (emb i) (emb j))

/-! ## SimilarityGrouper: naming and catch-all (`_group_similar_images`) -/

/-- `description.split()`: split on whitespace runs, no empty tokens. -/
def pySplit (s : String) : List String :=
  ((splitPred Char.isWhitespace s.data).filter (fun t => t ≠ [])).map (fun t => (⟨t⟩ : String))

/-- Number of occurrences of `w` (a `Counter` count). -/
def countWord (ws : List String) (w : String) : ℕ :=
  (ws.filter (fun v => v = w)).length

/-- Distinct words in first-occurrence order: the key order of
`Counter(all_words)` (dict insertion order). -/
def keysInOrder (ws : List String) : List String :=
  ws.foldl (fun ks w => if w ∈ ks then ks else ks ++ [w]) []

/-- `Counter(all_words).items()` with counts, keys in insertion order. -/
def counterItems (ws : List String) : List (String × ℕ) :=
  (keysInOrder ws).map (fun w => (w, countWord ws w))

/-- Stable insertion (descending by count): the new pair goes in front of
the first pair whose count is `≤` its own, so pairs earlier in the original
item order stay in front of later pairs with equal count — the tie-breaking
behaviour of `Counter.most_common` (a stable descending sort). -/
def insertDesc (p : String × ℕ) : List (String × ℕ) → List (String × ℕ)
  | [] => [p]
  | q :: tl => if q.2 ≤ p.2 then p :: q :: tl else q :: insertDesc p tl

/-- Stable descending sort by count (model of `Counter.most_common`). -/
def sortDesc : List (String × ℕ) → List (String × ℕ)
  | [] => []
  | p :: tl => insertDesc p (sortDesc tl)

/-- `Counter(...).most_common()`. -/
def mostCommonAll (ws : List String) : List (String × ℕ) :=
  sortDesc (counterItems ws)

/-- `[word for word, count in word_counts.most_common(3)]`. -/
def mostCommon3 (ws : List String) : List String :=
  ((mostCommonAll ws).take 3).map Prod.fst

/-- `'_'.join(common_words)` over the member descriptions of a cluster. -/
def nameCluster (g : List ImageInfo) : String :=
  ⟨joinSep '_' ((mostCommon3 (g.flatMap (fun img => pySplit img.description))).map String.data)⟩

/-- Decimal rendering of a counter (model of `f"{counter}"`), with explicit
fuel so that it reduces definitionally. -/
def natDigitsAux : ℕ → ℕ → List Char
  | _, 0 => []
  | 0, _ => []
  | f + 1, n => Nat.digitChar (n % 10) :: natDigitsAux f (n / 10)

def natStr (n : ℕ) : String :=
  if n = 0 then "0" else ⟨(natDigitsAux n n).reverse⟩

/-- The successive candidate names tried by the collision loop:
`group_name`, then `f"{original_name}_{counter}"` for `counter = 1, 2, …`. -/
def candName (base : String) : ℕ → String
  | 0 => base
  | k + 1 => base ++ "_" ++ natStr (k + 1)

/-- The `while group_name in organized_groups` loop; `fuel` bounds the
number of iterations (the loop always terminates within
`assigned.length + 1` trials, proved below). -/
def uniqueNameAux (assigned : List String) (base : String) : ℕ → ℕ → String
  | 0, k => candName base k
  | fuel + 1, k =>
    if candName base k ∈ assigned then uniqueNameAux assigned base fuel (k + 1)
    else candName base k

def uniqueName (assigned : List String) (base : String) : String :=
  uniqueNameAux assigned base (assigned.length + 1) 0

/-- Python `dict` assignment `d[k] = v`: replace in place if the key is
present (keeping its position), otherwise append. -/
def dictInsert {α : Type} : List (String × α) → String → α → List (String × α)
  | [], k, v => [(k, v)]
  | (k', v') :: tl, k, v =>
    if k' = k then (k', v) :: tl else (k', v') :: dictInsert tl k v

/-- One step of the `for group in groups` loop organizing the clusters:
a cluster of size `≥ min_group_size` is named and assigned, a smaller one
is pooled into `catch_all` (the second component). -/
def groupStep (minGroupSize : ℕ) (st : List (String × List ImageInfo) × List ImageInfo)
    (g : List ImageInfo) : List (String × List ImageInfo) × List ImageInfo :=
  if minGroupSize ≤ g.length then
    (dictInsert st.1 (uniqueName (st.1.map Prod.fst) (nameCluster g)) g, st.2)
  else (st.1, st.2 ++ g)

def groupFold (clusters : List (List ImageInfo)) (minGroupSize : ℕ) :
    List (String × List ImageInfo) × List ImageInfo :=
  clusters.foldl (groupStep minGroupSize) ([], [])

/-- The `organized_groups` mapping: named groups in assignment order, then
`organized_groups['misc_singles'] = catch_all` when `catch_all` is
non-empty. -/
def organizeGroups (clusters : List (List ImageInfo)) (minGroupSize : ℕ) :
    List (String × List ImageInfo) :=
  let st := groupFold clusters minGroupSize
  if st.2 = [] then st.1 else dictInsert st.1 "misc_singles" st.2

/-- `_group_similar_images(images, threshold, min_group_size)` with the
similarity test abstracted (the indices fed to `sim` are the `enumerate`
indices used to look up `embeddings[i]`). -/
def groupSimilarImages (images : List ImageInfo) (sim : ℕ → ℕ → Bool)
    (minGroupSize : ℕ) : List (String × List ImageInfo) :=
  organizeGroups ((findGroups images sim).map (List.map Prod.snd)) minGroupSize

/-- `_group_similar_images` with the similarity test of the source:
`np.dot(e i, e j) / (norm (e i) * norm (e j)) >= threshold`, where `emb`
models `self.embedder.encode(descriptions)`. -/
noncomputable def groupSimilarImagesCos (images : List ImageInfo) (emb : ℕ → List ℝ)
    (threshold : ℝ) (minGroupSize : ℕ) : List (String × List ImageInfo) :=
  groupSimilarImages images (cosB emb threshold) minGroupSize

/-! ## FileOrganizer (`_organize_files`)

The filesystem side effects are modelled as a plan: the directories created
and, per file, the (copy?, source, destination) triples.  Only the naming
logic carries algorithmic content. -/

/-- Stable ascending insertion by `original_name` (Python `list.sort` with
`key=lambda x: x['original_name']` is a stable ascending sort). -/
def insertByName (x : ImageInfo) : List ImageInfo → List ImageInfo
  | [] => [x]
  | y :: tl =>
    if lexLe x.originalName.data y.originalName.data then x :: y :: tl
    else y :: insertByName x tl

def sortByName : List ImageInfo → List ImageInfo
  | [] => []
  | x :: tl => insertByName x (sortByName tl)

/-- `f"{i:02d}"`: decimal, zero-padded to width at least 2. -/
def pad2 (n : ℕ) : String :=
  if n < 10 then "0" ++ natStr n else natStr n

/-- The (source path, destination filename) pairs produced for one group by
`_organize_files`: a multi-member group is sorted by original name and
renamed `f"{base_name}_{i:02d}{ext}"` from the first 4 words of the sorted
first member's description; a single-member group keeps its
`new_filename`.  (A group is never empty; the `[]` case is unreachable.) -/
def groupPlacements (images : List ImageInfo) : List (String × String) :=
  match images with
  | [] => []
  | img :: rest =>
    if rest = [] then [(img.originalPath, img.newFilename)]
    else
      let sorted := sortByName (img :: rest)
      let baseName : String := ⟨joinSep '_'
        (((pySplit (match sorted with | s :: _ => s.description | [] => "")).take 4).map String.data)⟩
      sorted.enum.map (fun q =>
        (q.2.originalPath, baseName ++ "_" ++ pad2 (q.1 + 1) ++ pathSuffix q.2.originalPath))

/-- The filesystem effects of `_organize_files`. -/
structure OrgPlan where
  dirsCreated : List String
  fileOps : List (Bool × String × String)
  deriving DecidableEq

/-- `_organize_files(groups, output_folder, copy_files)` as a plan:
`output_path.mkdir`, one subdirectory per group, and per member one copy or
move to `group_folder / new_filename`. -/
def organizePlan (groups : List (String × List ImageInfo)) (outputFolder : String)
    (copyFiles : Bool) : OrgPlan :=
  { dirsCreated := outputFolder :: groups.map (fun p => outputFolder ++ "/" ++ p.1),
    fileOps := groups.flatMap (fun p =>
      (groupPlacements p.2).map (fun q =>
        (copyFiles, q.1, outputFolder ++ "/" ++ p.1 ++ "/" ++ q.2))) }

/-! ## JobManager (`_process_job`)

A job's shared state is written in `with job_lock` blocks; the trace below
lists the successive states after each write block, which is exactly what
the status endpoint can observe.  The external world of a run — the folder
listing, the per-image outcome (`none` models the caught per-image
exception, line 124), the embedding-based similarity test, and a possible
job-fatal exception in the grouping (embedding backend) or organizing
phase — is a parameter. -/

inductive JobStatus where
  | pending
  | running
  | completed
  | error
  deriving DecidableEq

structure JobResults where
  totalImages : ℕ
  groupsCreated : ℕ
  groupSizes : List (String × ℕ)
  deriving DecidableEq

structure JobState where
  status : JobStatus
  progress : ℚ
  totalImages : ℕ
  processedImages : ℕ
  currentFile : String
  results : Option JobResults
  error : Option String
  deriving DecidableEq

structure JobEnv where
  allFiles : List String
  outputFolder : String
  copyFiles : Bool
  minGroupSize : ℕ
  sim : ℕ → ℕ → Bool
  perImage : ℕ → Option ImageInfo
  embedFail : Bool
  organizeFail : Bool
  errMsg : String

/-- The job dict as registered by `create_job`. -/
def initialJob : JobState :=
  { status := JobStatus.pending, progress := 0, totalImages := 0,
    processedImages := 0, currentFile := "", results := none, error := none }

def noImagesMsg : String := "No images found in the specified folder"

def jobFiles (env : JobEnv) : List String := discoverImages env.allFiles

/-- `processed_images`: the records appended by the per-file loop, skipping
files whose processing raised (caught) an exception. -/
def processedRecords (env : JobEnv) : List ImageInfo :=
  (List.range (jobFiles env).length).filterMap env.perImage

def jobGroups (env : JobEnv) : List (String × List ImageInfo) :=
  groupSimilarImages (processedRecords env) env.sim env.minGroupSize

/-- The sequence of job states after each `with job_lock` write block of
`_process_job` (head = state at creation). -/
def jobTrace (env : JobEnv) : List JobState :=
  let files := jobFiles env
  let n := files.length
  let s1 := { initialJob with status := JobStatus.running }
  let s2 := { s1 with totalImages := n }
  if n = 0 then
    [initialJob, s1, s2,
     { s2 with status := JobStatus.error, error := some noImagesMsg }]
  else
    let descs := (List.range n).map (fun i =>
      { s2 with currentFile := fileBase (files.getD i ""),
                processedImages := i,
                progress := (i : ℚ) / (n : ℚ) * 50 })
    let sd := { s2 with currentFile := fileBase (files.getD (n - 1) ""),
                        processedImages := n - 1,
                        progress := ((n - 1 : ℕ) : ℚ) / (n : ℚ) * 50 }
    let sg := { sd with currentFile := "Grouping similar images...", progress := 50 }
    if env.embedFail then
      [initialJob, s1, s2] ++ descs ++
        [sg, { sg with status := JobStatus.error, error := some env.errMsg }]
    else
      let so := { sg with currentFile := "Organizing files...", progress := 75 }
      if env.organizeFail then
        [initialJob, s1, s2] ++ descs ++
          [sg, so, { so with status := JobStatus.error, error := some env.errMsg }]
      else
        let gs := jobGroups env
        let res : JobResults :=
          { totalImages := (processedRecords env).length,
            groupsCreated := gs.length,
            groupSizes := gs.map (fun p => (p.1, p.2.length)) }
        [initialJob, s1, s2] ++ descs ++
          [sg, so,
           { so with status := JobStatus.completed, progress := 100,
                     results := some res, currentFile := "Complete!" }]

/-- The filesystem effects of a run: `none` when the organizing phase is
never reached or aborts (partial effects of an aborted organize are not
modelled). -/
def jobPlan (env : JobEnv) : Option OrgPlan :=
  if (jobFiles env).length = 0 then none
  else if env.embedFail then none
  else if env.organizeFail then none
  else some (organizePlan (jobGroups env) env.outputFolder env.copyFiles)

/-! ## Theorems

### C4 — filename sanitization -/

theorem mem_collapseUsAux {c : Char} :
    ∀ (b : Bool) (l : List Char), c ∈ collapseUsAux b l → c ∈ l ∨ c = '_' := by
  intro b l
  induction l generalizing b with
  | nil => simp [collapseUsAux]
  | cons d tl ih =>
    by_cases hd : d = '_'
    · subst hd
      cases b with
      | true =>
        simp only [collapseUsAux, if_pos rfl]
        intro h
        rcases ih true h with h' | h'
        · exact Or.inl (List.mem_cons_of_mem _ h')
        · exact Or.inr h'
      | false =>
        simp only [collapseUsAux, if_pos rfl]
        intro h
        rcases List.mem_cons.mp h with h' | h'
        · exact Or.inr h'
        · rcases ih true h' with h'' | h''
          · exact Or.inl (List.mem_cons_of_mem _ h'')
          · exact Or.inr h''
    · simp only [collapseUsAux, if_neg hd]
      intro h
      rcases List.mem_cons.mp h with h' | h'
      · exact Or.inl (h' ▸ List.mem_cons_self _ _)
      · rcases ih false h' with h'' | h''
        · exact Or.inl (List.mem_cons_of_mem _ h'')
        · exact Or.inr h''

theorem mem_of_mem_collapseUs {c : Char} {l : List Char} (h : c ∈ collapseUs l) :
    c ∈ l ∨ c = '_' :=
  mem_collapseUsAux false l h

theorem fnBase_length_le (d : String) : (fnBase d).length ≤ 100 := by
  show ((((collapseUs _).take 100).reverse.dropWhile _).reverse).length ≤ 100
  rw [List.length_reverse]
  calc (((collapseUs _).take 100).reverse.dropWhile (· = '_')).length
      ≤ ((collapseUs _).take 100).reverse.length :=
        (List.dropWhile_sublist _).length_le
    _ = ((collapseUs _).take 100).length := List.length_reverse _
    _ ≤ 100 := List.length_take_le _ _

theorem fnBase_charset (d : String) :
    ∀ c ∈ (fnBase d).data, (c.isAlpha || c.isDigit || c = '_' || c = '-') = true := by
  intro c hc
  have h1 : c ∈ ((collapseUs ((d.data.map (fun c => if c = ' ' then '_' else c)).filter
      (fun c => pyWordChar c || c = '-'))).take 100) := by
    have h2 := (List.mem_reverse).mp hc
    exact ((List.dropWhile_sublist _).mem h2 |> List.mem_reverse.mp)
  have h3 := (List.take_sublist _ _).mem h1
  rcases mem_of_mem_collapseUs h3 with h4 | h4
  · have h5 := List.of_mem_filter h4
    simp only [pyWordChar] at h5
    rcases Bool.or_eq_true_iff.mp h5 with h6 | h6
    · rcases Bool.or_eq_true_iff.mp h6 with h7 | h7
      · rcases Bool.or_eq_true_iff.mp h7 with h8 | h8 <;> simp [h8]
      · simp [h7]
    · simp [h6]
  · simp [h4]

/-- C4 (amended): the sanitized filename is the `_describe_image` clean-up
followed by `_generate_filename`'s base computation with the original
extension appended *lowercased*; an empty sanitized base yields just the
lowercased extension (there is no `unknown_image` fallback in
`_generate_filename`; that literal is only the fallback description when
captioning fails).  The base never exceeds 100 characters and contains only
characters from `[A-Za-z0-9_-]`. -/
theorem c4_sanitized_filename (d p : String) :
    sanitizeFilename d p = fnBase (cleanDescription d) ++ strToLower (pathSuffix p) ∧
    sanitizeFilename "" p = strToLower (pathSuffix p) ∧
    (fnBase (cleanDescription d)).length ≤ 100 ∧
    ∀ c ∈ (fnBase (cleanDescription d)).data,
      (c.isAlpha || c.isDigit || c = '_' || c = '-') = true :=
  ⟨rfl, rfl, fnBase_length_le _, fnBase_charset _⟩

theorem c4_witness : (fnBase (cleanDescription "woman cyberpunk neon")).length ≤ 100 :=
  (c4_sanitized_filename "woman cyberpunk neon" "x.jpg").2.2.1

/-- C4 counterexample: the code lowercases the original extension
(`suffix.lower()`), while the claim preserves its case; and an empty
description yields just the extension, not the literal `unknown_image`. -/
theorem c4_counterexample :
    sanitizeFilename "cat" "x.PNG" = "cat.png" ∧
    sanitizeSpecC4 "cat" "x.PNG" = "cat.PNG" ∧
    sanitizeFilename "cat" "x.PNG" ≠ sanitizeSpecC4 "cat" "x.PNG" ∧
    sanitizeFilename "" "x.jpg" = ".jpg" ∧
    sanitizeSpecC4 "" "x.jpg" = "unknown_image" := by
  refine ⟨by decide, by decide, by decide, by decide, by decide⟩

/-! ### C8 — image-file discovery -/

/-- C8 (amended): discovery selects exactly the files ending in one of the
six extensions in all-lowercase or all-uppercase form; mixed-case variants
such as `.Jpg` are not matched (the source only globs `ext` and
`ext.upper()`). -/
theorem c8_discovery (f : String) (allFiles : List String) :
    f ∈ discoverImages allFiles ↔
      f ∈ allFiles ∧ ∃ ext ∈ imageExtensions,
        (strEndsWith f ext = true ∨ strEndsWith f (strToUpper ext) = true) := by
  simp only [discoverImages, List.mem_flatMap, List.mem_append, List.mem_filter]
  constructor
  · rintro ⟨ext, hext, h | h⟩
    · exact ⟨h.1, ext, hext, Or.inl h.2⟩
    · exact ⟨h.1, ext, hext, Or.inr h.2⟩
  · rintro ⟨hf, ext, hext, h | h⟩
    · exact ⟨ext, hext, Or.inl ⟨hf, h⟩⟩
    · exact ⟨ext, hext, Or.inr ⟨hf, h⟩⟩

theorem c8_witness : "c.jpg" ∈ discoverImages ["c.jpg", "d.txt"] :=
  (c8_discovery "c.jpg" ["c.jpg", "d.txt"]).mpr (by decide)

/-- C8 counterexample: `photo.Jpg` has a case-variant of `.jpg` as its
extension but is not discovered. -/
theorem c8_counterexample :
    "photo.Jpg" ∉ discoverImages ["photo.Jpg"] ∧
    strEndsWith (strToLower "photo.Jpg") ".jpg" = true ∧
    ".jpg" ∈ imageExtensions := by
  refine ⟨by decide, by decide, by decide⟩

/-! ### C2 — the clustering loop is star clustering over the seed -/

/-- The test applied by the inner loop to a candidate record: still
unclaimed, and similar to the seed `i`. -/
def unclaimedSim (sim : ℕ → ℕ → Bool) (i : ℕ) (used : List ℕ) (p : ℕ × ImageInfo) : Bool :=
  !decide (p.1 ∈ used) && sim i p.1

theorem innerScan_eq (sim : ℕ → ℕ → Bool) (i : ℕ) :
    ∀ (rest : List (ℕ × ImageInfo)) (used : List ℕ) (acc : List (ℕ × ImageInfo)),
    (rest.map Prod.fst).Nodup →
    innerScan sim i rest used acc =
      (acc ++ rest.filter (unclaimedSim sim i used),
       ((rest.filter (unclaimedSim sim i used)).map Prod.fst).reverse ++ used) := by
  intro rest
  induction rest with
  | nil => intro used acc _; simp [innerScan]
  | cons hd tl ih =>
    intro used acc hnd
    obtain ⟨j, x⟩ := hd
    rw [List.map_cons, List.nodup_cons] at hnd
    obtain ⟨hj, htl⟩ := hnd
    by_cases hju : j ∈ used
    · have hhead : unclaimedSim sim i used (j, x) = false := by
        simp [unclaimedSim, hju]
      rw [List.filter_cons_of_neg (by simp [hhead]), innerScan, if_pos hju]
      exact ih used acc htl
    · by_cases hs : sim i j
      · have hhead : unclaimedSim sim i used (j, x) = true := by
          simp [unclaimedSim, hju, hs]
        have hcongr : tl.filter (unclaimedSim sim i (j :: used)) =
            tl.filter (unclaimedSim sim i used) := by
          apply List.filter_congr
          intro p hp
          have hmem : p.1 ∈ tl.map Prod.fst := List.mem_map_of_mem Prod.fst hp
          have hpj : p.1 ≠ j := fun hne => hj (hne ▸ hmem)
          simp [unclaimedSim, List.mem_cons, hpj]
        rw [List.filter_cons_of_pos (by simp [hhead]), innerScan, if_neg hju, if_pos hs,
          ih (j :: used) (acc ++ [(j, x)]) htl, hcongr]
        simp
      · have hhead : unclaimedSim sim i used (j, x) = false := by
          simp [unclaimedSim, hju, hs]
        rw [List.filter_cons_of_neg (by simp [hhead]), innerScan, if_neg hju, if_neg hs]
        exact ih used acc htl

theorem outerScan_eq (sim : ℕ → ℕ → Bool) (all : List (ℕ × ImageInfo))
    (hall : (all.map Prod.fst).Nodup) :
    ∀ (rest : List (ℕ × ImageInfo)) (used : List ℕ)
      (groups : List (List (ℕ × ImageInfo))),
    rest <:+ all →
    (∀ p ∈ all, p.1 ∉ used → p ∈ rest) →
    outerScan sim all rest used groups =
      groups ++ starSpec sim (rest.filter (fun p => !decide (p.1 ∈ used))) := by
  intro rest
  induction rest with
  | nil =>
    intro used groups _ _
    simp [outerScan, starSpec]
  | cons hd tl ih =>
    intro used groups hsuf h3
    obtain ⟨i, x⟩ := hd
    have htlsuf : tl <:+ all := (List.suffix_cons (i, x) tl).trans hsuf
    obtain ⟨pre, hpre⟩ := hsuf
    have hnodup_parts : ((pre.map Prod.fst) ++ (i :: tl.map Prod.fst)).Nodup := by
      have : all.map Prod.fst = pre.map Prod.fst ++ (i :: tl.map Prod.fst) := by
        rw [← hpre]; simp
      exact this ▸ hall
    have hintl : i ∉ tl.map Prod.fst := by
      have := (List.nodup_append.mp hnodup_parts).2.1
      rw [List.nodup_cons] at this
      exact this.1
    by_cases hiu : i ∈ used
    · rw [outerScan, if_pos hiu,
        List.filter_cons_of_neg (by simp [hiu]),
        ih used groups htlsuf]
      intro p hp hpu
      rcases List.mem_cons.mp (h3 p hp hpu) with h | h
      · exact absurd (h ▸ hpu) (by simpa using hiu)
      · exact h
    · -- i seeds a new cluster
      have hinner := innerScan_eq sim i all (i :: used) [(i, x)] hall
      -- the elements of `pre` are all claimed
      have hpre_filter : pre.filter (unclaimedSim sim i (i :: used)) = [] := by
        rw [List.filter_eq_nil_iff]
        intro p hp
        by_cases hpm : p.1 ∈ i :: used
        · simp [unclaimedSim, hpm]
        · exfalso
          have hpu : p.1 ∉ used := fun h => hpm (List.mem_cons_of_mem _ h)
          have hpall : p ∈ all := by
            rw [← hpre]; exact List.mem_append_left _ hp
          have hprest := h3 p hpall hpu
          have hfst1 : p.1 ∈ pre.map Prod.fst := List.mem_map_of_mem Prod.fst hp
          have hfst2 : p.1 ∈ i :: tl.map Prod.fst := by
            rcases List.mem_cons.mp hprest with h | h
            · simp [h]
            · exact List.mem_cons_of_mem _ (List.mem_map_of_mem Prod.fst h)
          exact (List.nodup_append.mp hnodup_parts).2.2 hfst1 hfst2
      have hall_filter : all.filter (unclaimedSim sim i (i :: used)) =
          tl.filter (unclaimedSim sim i used) := by
        rw [← hpre, List.filter_append, hpre_filter, List.nil_append,
          List.filter_cons_of_neg (by simp [unclaimedSim]),
          List.filter_congr]
        intro p hp
        have hmem : p.1 ∈ tl.map Prod.fst := List.mem_map_of_mem Prod.fst hp
        have hpi : p.1 ≠ i := fun h => hintl (h ▸ hmem)
        simp [unclaimedSim, List.mem_cons, hpi]
      rw [outerScan, if_neg hiu, hinner]
      simp only [hall_filter, List.singleton_append]
      -- the recursive call through the induction hypothesis
      rw [ih (((tl.filter (unclaimedSim sim i used)).map Prod.fst).reverse ++ i :: used)
        (groups ++ [(i, x) :: tl.filter (unclaimedSim sim i used)]) htlsuf ?h3new]
      case h3new =>
        intro p hp hpu
        have hpu2 : p.1 ∉ i :: used := fun h =>
          hpu (List.mem_append_right _ h)
        have hpused : p.1 ∉ used := fun h => hpu2 (List.mem_cons_of_mem _ h)
        rcases List.mem_cons.mp (h3 p hp hpused) with h | h
        · exact absurd (congrArg Prod.fst h)
            (fun hh => hpu2 (List.mem_cons.mpr (Or.inl hh)))
        · exact h
      -- identify the filtered rest of the recursive call
      have hfinal : tl.filter (fun p =>
            !decide (p.1 ∈ ((tl.filter (unclaimedSim sim i used)).map Prod.fst).reverse
              ++ i :: used)) =
          (tl.filter (fun p => !decide (p.1 ∈ used))).filter (fun p => !sim i p.1) := by
        rw [List.filter_filter, List.filter_congr]
        intro p hp
        have hmem2 : p.1 ∈ tl.map Prod.fst := List.mem_map_of_mem Prod.fst hp
        have hpi : p.1 ≠ i := fun h => hintl (h ▸ hmem2)
        have hinj := List.inj_on_of_nodup_map
          (htlsuf.sublist.map Prod.fst |>.nodup hall)
        have hpick : p.1 ∈ (tl.filter (unclaimedSim sim i used)).map Prod.fst ↔
            (p.1 ∉ used ∧ sim i p.1 = true) := by
          constructor
          · intro h
            obtain ⟨q, hq, hq1⟩ := List.mem_map.mp h
            have hq' : q ∈ tl := List.mem_of_mem_filter hq
            have : q = p := hinj hq' hp hq1
            subst this
            have := List.of_mem_filter hq
            simp only [unclaimedSim, Bool.and_eq_true, Bool.not_eq_true',
              decide_eq_false_iff_not] at this
            exact this
          · intro ⟨h1, h2⟩
            exact List.mem_map_of_mem Prod.fst
              (List.mem_filter.mpr ⟨hp, by simp [unclaimedSim, h1, h2]⟩)
        by_cases hpu : p.1 ∈ used
        · simp [List.mem_append, List.mem_cons, hpu]
        · by_cases hps : sim i p.1
          · have : p.1 ∈ (tl.filter (unclaimedSim sim i used)).map Prod.fst :=
              hpick.mpr ⟨hpu, hps⟩
            simp [List.mem_append, this, hps]
          · have : p.1 ∉ (tl.filter (unclaimedSim sim i used)).map Prod.fst := by
              intro h
              exact hps (hpick.mp h).2
            simp [List.mem_append, List.mem_cons, hpu, hpi, this, hps]
      rw [hfinal]
      -- unfold the specification side
      have hspec : ((i, x) :: tl).filter (fun p => !decide (p.1 ∈ used)) =
          (i, x) :: tl.filter (fun p => !decide (p.1 ∈ used)) :=
        List.filter_cons_of_pos (by simp [hiu])
      have hpickeq : (tl.filter (fun p => !decide (p.1 ∈ used))).filter
            (fun q => sim i q.1) = tl.filter (unclaimedSim sim i used) := by
        rw [List.filter_filter, List.filter_congr]
        intro p _
        simp [unclaimedSim, Bool.and_comm]
      rw [hspec, starSpec, hpickeq]
      simp

theorem findGroups_eq_starSpec (images : List ImageInfo) (sim : ℕ → ℕ → Bool) :
    findGroups images sim = starSpec sim images.enum := by
  have h := outerScan_eq sim images.enum
    (by rw [List.enum_map_fst]; exact List.nodup_range _)
    images.enum [] [] List.suffix_rfl (fun p hp _ => hp)
  rw [findGroups, h, List.nil_append]
  congr 1
  have : (fun p : ℕ × ImageInfo => !decide (p.1 ∈ ([] : List ℕ))) = fun _ => true := by
    funext p; simp
  rw [this, List.filter_true]

/-- C2: the clustering step of `_group_similar_images` is star clustering
over the seed only — records are scanned in original order, a claimed index
is skipped, an unclaimed record seeds a cluster, and a later unclaimed
record `j` joins the cluster of seed `i` exactly when
`dot(e i, e j) / (norm(e i) * norm(e j)) ≥ threshold` (`cosB`); similarity
is only ever evaluated against the seed, never against other members, as
the `starSpec` normal form makes explicit. -/
theorem c2_star_clustering (images : List ImageInfo) (emb : ℕ → List ℝ)
    (threshold : ℝ) :
    findGroups images (cosB emb threshold) =
      starSpec (cosB emb threshold) images.enum :=
  findGroups_eq_starSpec images (cosB emb threshold)

theorem c2_witness :
    findGroups [] (cosB (fun _ => []) 0) = starSpec (cosB (fun _ => []) 0) [] :=
  c2_star_clustering [] (fun _ => []) 0

/-! ### C3 — group naming -/

/-- Decimal decoding (little-endian), inverse of `natDigitsAux`. -/
def charVal (c : Char) : ℕ := c.toNat - 48

def decodeLE : List Char → ℕ
  | [] => 0
  | c :: tl => decodeLE tl * 10 + charVal c

theorem charVal_digitChar (d : ℕ) (hd : d < 10) : charVal (Nat.digitChar d) = d := by
  interval_cases d <;> rfl

theorem natDigitsAux_succ (f n : ℕ) :
    natDigitsAux (f + 1) (n + 1) =
      Nat.digitChar ((n + 1) % 10) :: natDigitsAux f ((n + 1) / 10) := rfl

theorem decodeLE_natDigitsAux : ∀ (f n : ℕ), n ≤ f → decodeLE (natDigitsAux f n) = n := by
  intro f
  induction f with
  | zero =>
    intro n hn
    interval_cases n
    rfl
  | succ f ih =>
    intro n hn
    match n with
    | 0 => rfl
    | n + 1 =>
      rw [natDigitsAux_succ, decodeLE, ih ((n + 1) / 10) (by omega),
        charVal_digitChar _ (Nat.mod_lt _ (by norm_num))]
      omega

theorem natStr_decode (n : ℕ) : decodeLE (natStr n).data.reverse = n := by
  unfold natStr
  by_cases hn : n = 0
  · rw [if_pos hn, hn]; rfl
  · rw [if_neg hn]
    show decodeLE ((natDigitsAux n n).reverse).reverse = n
    rw [List.reverse_reverse]
    exact decodeLE_natDigitsAux n n le_rfl

theorem natStr_data_inj (m n : ℕ) (h : (natStr m).data = (natStr n).data) : m = n := by
  have h1 := natStr_decode m
  have h2 := natStr_decode n
  rw [h] at h1
  exact h1.symm.trans h2

theorem natStr_length_pos (n : ℕ) : 0 < (natStr n).length := by
  unfold natStr
  by_cases hn : n = 0
  · rw [if_pos hn]; decide
  · rw [if_neg hn]
    show 0 < (natDigitsAux n n).reverse.length
    rw [List.length_reverse]
    cases hx : natDigitsAux n n with
    | nil =>
      exfalso
      have hdec := decodeLE_natDigitsAux n n le_rfl
      rw [hx] at hdec
      exact hn hdec.symm
    | cons c tl => simp

theorem candName_inj (base : String) : ∀ k l : ℕ, candName base k = candName base l → k = l := by
  have hu : ("_" : String).length = 1 := rfl
  have hlen : ∀ j : ℕ,
      (candName base (j + 1)).length = base.length + 1 + (natStr (j + 1)).length := by
    intro j
    show ((base ++ "_") ++ natStr (j + 1)).length = _
    rw [String.length_append, String.length_append, hu]
  intro k l h
  match k, l with
  | 0, 0 => rfl
  | 0, l + 1 =>
    exfalso
    have hc := congrArg String.length h
    have hc0 : (candName base 0).length = base.length := rfl
    rw [hc0, hlen l] at hc
    have := natStr_length_pos (l + 1)
    omega
  | k + 1, 0 =>
    exfalso
    have hc := congrArg String.length h
    have hc0 : (candName base 0).length = base.length := rfl
    rw [hc0, hlen k] at hc
    have := natStr_length_pos (k + 1)
    omega
  | k + 1, l + 1 =>
    have hd := congrArg String.data h
    have hd2 : (base ++ "_").data ++ (natStr (k + 1)).data =
        (base ++ "_").data ++ (natStr (l + 1)).data := by
      simpa [candName, String.data_append] using hd
    have := natStr_data_inj (k + 1) (l + 1) (List.append_cancel_left hd2)
    omega

theorem exists_candName_not_mem (assigned : List String) (base : String) :
    ∃ k, k ≤ assigned.length ∧ candName base k ∉ assigned := by
  by_contra h
  push_neg at h
  have hsub : (Finset.range (assigned.length + 1)).image (candName base) ⊆
      assigned.toFinset := by
    intro s hs
    obtain ⟨k, hk, rfl⟩ := Finset.mem_image.mp hs
    exact List.mem_toFinset.mpr (h k (Nat.lt_succ_iff.mp (Finset.mem_range.mp hk)))
  have hcard1 : ((Finset.range (assigned.length + 1)).image (candName base)).card =
      assigned.length + 1 := by
    rw [Finset.card_image_of_injOn (fun a _ b _ hab => candName_inj base a b hab),
      Finset.card_range]
  have hcard2 := Finset.card_le_card hsub
  have hcard3 : assigned.toFinset.card ≤ assigned.length := assigned.toFinset_card_le
  omega

theorem uniqueNameAux_spec (assigned : List String) (base : String) :
    ∀ (fuel k0 : ℕ),
    (∃ k, k0 ≤ k ∧ k < k0 + fuel ∧ candName base k ∉ assigned) →
    ∃ K, k0 ≤ K ∧ uniqueNameAux assigned base fuel k0 = candName base K ∧
      candName base K ∉ assigned ∧
      ∀ j, k0 ≤ j → j < K → candName base j ∈ assigned := by
  intro fuel
  induction fuel with
  | zero =>
    intro k0 h
    obtain ⟨k, hk1, hk2, _⟩ := h
    omega
  | succ f ih =>
    intro k0 h
    obtain ⟨k, hk1, hk2, hk3⟩ := h
    by_cases h0 : candName base k0 ∈ assigned
    · rw [uniqueNameAux, if_pos h0]
      have hkne : k ≠ k0 := fun hke => (hke ▸ hk3) h0
      obtain ⟨K, hK0, hKeq, hKfree, hKmin⟩ := ih (k0 + 1) ⟨k, by omega, by omega, hk3⟩
      refine ⟨K, by omega, hKeq, hKfree, ?_⟩
      intro j hj1 hj2
      rcases Nat.eq_or_lt_of_le hj1 with rfl | hje
      · exact h0
      · exact hKmin j hje hj2
    · rw [uniqueNameAux, if_neg h0]
      exact ⟨k0, le_refl _, rfl, h0, fun j hj1 hj2 => absurd hj1 (by omega)⟩

/-- The collision loop returns the first unused candidate:
`base`, `base_1`, `base_2`, … -/
theorem uniqueName_spec (assigned : List String) (base : String) :
    ∃ K, uniqueName assigned base = candName base K ∧
      candName base K ∉ assigned ∧ ∀ j < K, candName base j ∈ assigned := by
  obtain ⟨k, hk1, hk2⟩ := exists_candName_not_mem assigned base
  obtain ⟨K, _, hKeq, hKfree, hKmin⟩ := uniqueNameAux_spec assigned base
    (assigned.length + 1) 0 ⟨k, Nat.zero_le _, by omega, hk2⟩
  exact ⟨K, hKeq, hKfree, fun j hj => hKmin j (Nat.zero_le _) hj⟩

theorem uniqueName_not_mem (assigned : List String) (base : String) :
    uniqueName assigned base ∉ assigned := by
  obtain ⟨K, hKeq, hKfree, _⟩ := uniqueName_spec assigned base
  rw [hKeq]
  exact hKfree

theorem dictInsert_of_not_mem {α : Type} (d : List (String × α)) (k : String) (v : α)
    (h : k ∉ d.map Prod.fst) : dictInsert d k v = d ++ [(k, v)] := by
  induction d with
  | nil => rfl
  | cons hd tl ih =>
    obtain ⟨k', v'⟩ := hd
    rw [List.map_cons, List.mem_cons] at h
    push_neg at h
    rw [dictInsert, if_neg (fun he => h.1 he.symm), ih h.2]
    rfl

theorem dictInsert_keys {α : Type} (d : List (String × α)) (k : String) (v : α) :
    (dictInsert d k v).map Prod.fst =
      if k ∈ d.map Prod.fst then d.map Prod.fst else d.map Prod.fst ++ [k] := by
  induction d with
  | nil => rfl
  | cons hd tl ih =>
    obtain ⟨k', v'⟩ := hd
    by_cases hk : k' = k
    · subst hk
      rw [dictInsert, if_pos rfl]
      simp
    · rw [dictInsert, if_neg hk, List.map_cons, List.map_cons, ih]
      by_cases hmem : k ∈ tl.map Prod.fst
      · rw [if_pos hmem, if_pos (by simp [hmem])]
      · rw [if_neg hmem, if_neg (by simp [hmem, Ne.symm hk])]
        rfl

theorem keysInOrder_fold_spec :
    ∀ (ws : List String) (acc : List String), acc.Nodup →
      ((ws.foldl (fun ks w => if w ∈ ks then ks else ks ++ [w]) acc).Nodup ∧
       (∀ w, w ∈ ws.foldl (fun ks w => if w ∈ ks then ks else ks ++ [w]) acc ↔
          w ∈ acc ∨ w ∈ ws)) := by
  intro ws
  induction ws with
  | nil =>
    intro acc hacc
    exact ⟨hacc, fun w => by simp⟩
  | cons w tl ih =>
    intro acc hacc
    rw [List.foldl_cons]
    by_cases hw : w ∈ acc
    · rw [if_pos hw]
      obtain ⟨h1, h2⟩ := ih acc hacc
      refine ⟨h1, fun w' => ?_⟩
      rw [h2 w']
      constructor
      · rintro (h | h)
        · exact Or.inl h
        · exact Or.inr (List.mem_cons_of_mem _ h)
      · rintro (h | h)
        · exact Or.inl h
        · rcases List.mem_cons.mp h with rfl | h
          · exact Or.inl hw
          · exact Or.inr h
    · rw [if_neg hw]
      have hacc' : (acc ++ [w]).Nodup := by
        rw [List.nodup_append]
        exact ⟨hacc, List.nodup_singleton w, by simpa using hw⟩
      obtain ⟨h1, h2⟩ := ih (acc ++ [w]) hacc'
      refine ⟨h1, fun w' => ?_⟩
      rw [h2 w']
      simp only [List.mem_append, List.mem_singleton, List.mem_cons]
      tauto

theorem keysInOrder_nodup (ws : List String) : (keysInOrder ws).Nodup :=
  (keysInOrder_fold_spec ws [] List.nodup_nil).1

theorem mem_keysInOrder (ws : List String) (w : String) :
    w ∈ keysInOrder ws ↔ w ∈ ws := by
  rw [keysInOrder, (keysInOrder_fold_spec ws [] List.nodup_nil).2 w]
  simp

theorem counterItems_keys (ws : List String) :
    (counterItems ws).map Prod.fst = keysInOrder ws := by
  rw [counterItems, List.map_map]
  exact List.map_id _

theorem mem_counterItems (ws : List String) (w : String) :
    (w, countWord ws w) ∈ counterItems ws ↔ w ∈ ws := by
  rw [counterItems, ← mem_keysInOrder ws w]
  constructor
  · intro h
    obtain ⟨w', hw', heq⟩ := List.mem_map.mp h
    exact (Prod.mk.injEq _ _ _ _ ▸ heq).1 ▸ hw'
  · intro h
    exact List.mem_map_of_mem _ h

theorem insertDesc_perm (p : String × ℕ) (l : List (String × ℕ)) :
    List.Perm (insertDesc p l) (p :: l) := by
  induction l with
  | nil => exact List.Perm.refl _
  | cons q tl ih =>
    rw [insertDesc]
    by_cases h : q.2 ≤ p.2
    · rw [if_pos h]
    · rw [if_neg h]
      exact (ih.cons q).trans (List.Perm.swap p q tl)

theorem sortDesc_perm (l : List (String × ℕ)) : List.Perm (sortDesc l) l := by
  induction l with
  | nil => exact List.Perm.refl _
  | cons p tl ih =>
    exact (insertDesc_perm p (sortDesc tl)).trans (ih.cons p)

theorem mem_insertDesc {p q : String × ℕ} {l : List (String × ℕ)} :
    q ∈ insertDesc p l ↔ q = p ∨ q ∈ l := by
  rw [(insertDesc_perm p l).mem_iff, List.mem_cons]

theorem insertDesc_pairwise (p : String × ℕ) (l : List (String × ℕ))
    (hl : l.Pairwise (fun a b : String × ℕ => b.2 ≤ a.2)) :
    (insertDesc p l).Pairwise (fun a b : String × ℕ => b.2 ≤ a.2) := by
  induction l with
  | nil => simp [insertDesc]
  | cons q tl ih =>
    rw [List.pairwise_cons] at hl
    obtain ⟨hq, htl⟩ := hl
    rw [insertDesc]
    by_cases h : q.2 ≤ p.2
    · rw [if_pos h, List.pairwise_cons]
      refine ⟨?_, List.pairwise_cons.mpr ⟨hq, htl⟩⟩
      intro r hr
      rcases List.mem_cons.mp hr with rfl | hr
      · exact h
      · exact le_trans (hq r hr) h
    · rw [if_neg h, List.pairwise_cons]
      refine ⟨?_, ih htl⟩
      intro r hr
      rcases mem_insertDesc.mp hr with rfl | hr
      · omega
      · exact hq r hr

theorem sortDesc_pairwise (l : List (String × ℕ)) :
    (sortDesc l).Pairwise (fun a b : String × ℕ => b.2 ≤ a.2) := by
  induction l with
  | nil => simp [sortDesc]
  | cons p tl ih => exact insertDesc_pairwise p (sortDesc tl) ih

theorem sublist_insertDesc (x : String × ℕ) (l : List (String × ℕ)) :
    l.Sublist (insertDesc x l) := by
  induction l with
  | nil => simp [insertDesc]
  | cons q tl ih =>
    rw [insertDesc]
    by_cases h : q.2 ≤ x.2
    · rw [if_pos h]
      exact List.sublist_cons_self x (q :: tl)
    · rw [if_neg h]
      exact ih.cons₂ q

theorem insertDesc_pair_sublist (x z : String × ℕ) (l : List (String × ℕ))
    (hz : z ∈ l) (hle : z.2 ≤ x.2) : [x, z].Sublist (insertDesc x l) := by
  induction l with
  | nil => simp at hz
  | cons q tl ih =>
    rw [insertDesc]
    by_cases h : q.2 ≤ x.2
    · rw [if_pos h]
      exact (List.singleton_sublist.mpr hz).cons₂ x
    · rw [if_neg h]
      rcases List.mem_cons.mp hz with rfl | hz'
      · omega
      · exact (ih hz').cons q

theorem sortDesc_stable (l : List (String × ℕ)) :
    l.Pairwise (fun p q : String × ℕ => p.2 = q.2 → [p, q].Sublist (sortDesc l)) := by
  induction l with
  | nil => simp
  | cons x tl ih =>
    rw [sortDesc, List.pairwise_cons]
    constructor
    · intro q hq heq
      exact insertDesc_pair_sublist x q (sortDesc tl)
        ((sortDesc_perm tl).mem_iff.mpr hq) (le_of_eq heq.symm)
    · refine ih.imp ?_
      intro a b hab heq
      exact (hab heq).trans (sublist_insertDesc x (sortDesc tl))

theorem groupFold_keys_nodup_aux (m : ℕ) :
    ∀ (clusters : List (List ImageInfo))
      (st : List (String × List ImageInfo) × List ImageInfo),
      (st.1.map Prod.fst).Nodup →
      ((clusters.foldl (groupStep m) st).1.map Prod.fst).Nodup := by
  intro clusters
  induction clusters with
  | nil => intro st h; exact h
  | cons g tl ih =>
    intro st h
    rw [List.foldl_cons]
    apply ih
    rw [groupStep]
    by_cases hsz : m ≤ g.length
    · rw [if_pos hsz]
      have hfree := uniqueName_not_mem (st.1.map Prod.fst) (nameCluster g)
      rw [dictInsert_keys, if_neg hfree, List.nodup_append]
      exact ⟨h, List.nodup_singleton _, by simpa using hfree⟩
    · rw [if_neg hsz]
      exact h

theorem organizeGroups_keys_nodup (clusters : List (List ImageInfo)) (m : ℕ) :
    ((organizeGroups clusters m).map Prod.fst).Nodup := by
  rw [organizeGroups]
  have h := groupFold_keys_nodup_aux m clusters ([], []) List.nodup_nil
  by_cases hc : (groupFold clusters m).2 = []
  · rw [if_pos hc]
    exact h
  · rw [if_neg hc, dictInsert_keys]
    by_cases hm : "misc_singles" ∈ (groupFold clusters m).1.map Prod.fst
    · rw [if_pos hm]
      exact h
    · rw [if_neg hm, List.nodup_append]
      exact ⟨h, List.nodup_singleton _, by simpa using hm⟩

/-- C3: group naming.  (i) The names of a job's groups (`misc_singles`
included) are pairwise distinct.  (ii) `most_common` returns the counter
items sorted by descending count, stably: the output is a permutation of
the distinct words with their occurrence counts, keys in first-occurrence
order, counts descending, and two words with equal counts stay in
first-occurrence order; the cluster name joins the first 3 of them.
(iii) The collision loop appends the first unused suffix `_1`, `_2`, …. -/
theorem c3_group_naming :
    (∀ (clusters : List (List ImageInfo)) (m : ℕ),
      ((organizeGroups clusters m).map Prod.fst).Nodup) ∧
    (∀ ws : List String,
      mostCommon3 ws = ((mostCommonAll ws).take 3).map Prod.fst ∧
      List.Perm (mostCommonAll ws) (counterItems ws) ∧
      (counterItems ws).map Prod.fst = keysInOrder ws ∧
      (keysInOrder ws).Nodup ∧
      (∀ w, (w, countWord ws w) ∈ counterItems ws ↔ w ∈ ws) ∧
      (mostCommonAll ws).Pairwise (fun p q : String × ℕ => q.2 ≤ p.2) ∧
      (counterItems ws).Pairwise
        (fun p q : String × ℕ => p.2 = q.2 → [p, q].Sublist (mostCommonAll ws))) ∧
    (∀ (assigned : List String) (base : String),
      ∃ K, uniqueName assigned base = candName base K ∧
        candName base K ∉ assigned ∧ ∀ j < K, candName base j ∈ assigned) :=
  ⟨organizeGroups_keys_nodup,
   fun ws =>
    ⟨rfl, sortDesc_perm _, counterItems_keys ws, keysInOrder_nodup ws,
     mem_counterItems ws, sortDesc_pairwise _, sortDesc_stable _⟩,
   uniqueName_spec⟩

theorem c3_witness :
    ((organizeGroups [] 3).map Prod.fst).Nodup ∧
    mostCommon3 ["b", "a", "a", "c", "b"] =
      ((mostCommonAll ["b", "a", "a", "c", "b"]).take 3).map Prod.fst :=
  ⟨c3_group_naming.1 [] 3, (c3_group_naming.2.1 ["b", "a", "a", "c", "b"]).1⟩

/-! ### C1 — the grouping output as a partition -/

theorem groupFold_spec (m : ℕ) :
    ∀ (clusters : List (List ImageInfo))
      (st : List (String × List ImageInfo) × List ImageInfo),
    ((clusters.foldl (groupStep m) st).1.map Prod.snd =
       st.1.map Prod.snd ++ clusters.filter (fun g => decide (m ≤ g.length))) ∧
    ((clusters.foldl (groupStep m) st).2 =
       st.2 ++ (clusters.filter (fun g => !decide (m ≤ g.length))).flatten) := by
  intro clusters
  induction clusters with
  | nil => intro st; simp
  | cons g tl ih =>
    intro st
    rw [List.foldl_cons]
    by_cases hg : m ≤ g.length
    · have hstep : groupStep m st g =
          (st.1 ++ [(uniqueName (st.1.map Prod.fst) (nameCluster g), g)], st.2) := by
        rw [groupStep, if_pos hg,
          dictInsert_of_not_mem _ _ _ (uniqueName_not_mem _ _)]
      rw [hstep]
      obtain ⟨ih1, ih2⟩ := ih (st.1 ++ [(uniqueName (st.1.map Prod.fst) (nameCluster g), g)], st.2)
      constructor
      · rw [ih1, List.filter_cons_of_pos (by simpa using hg)]
        simp
      · rw [ih2, List.filter_cons_of_neg (by simpa using hg)]
    · have hstep : groupStep m st g = (st.1, st.2 ++ g) := by
        rw [groupStep, if_neg hg]
      rw [hstep]
      obtain ⟨ih1, ih2⟩ := ih (st.1, st.2 ++ g)
      constructor
      · rw [ih1, List.filter_cons_of_neg (by simpa using hg)]
      · rw [ih2, List.filter_cons_of_pos (by simpa using hg)]
        simp

theorem starSpec_flatten_perm (sim : ℕ → ℕ → Bool) :
    ∀ (n : ℕ) (l : List (ℕ × ImageInfo)), l.length ≤ n →
      List.Perm (starSpec sim l).flatten l := by
  intro n
  induction n with
  | zero =>
    intro l hl
    have : l = [] := List.eq_nil_of_length_eq_zero (Nat.le_zero.mp hl)
    subst this
    simp [starSpec]
  | succ n ih =>
    intro l hl
    match l with
    | [] => simp [starSpec]
    | p :: rest =>
      rw [starSpec, List.flatten_cons, List.cons_append]
      refine List.Perm.cons p ?_
      have hlen : (rest.filter (fun q => !sim p.1 q.1)).length ≤ n :=
        le_trans (List.length_filter_le _ _) (by simpa using hl)
      exact (List.Perm.append_left _ (ih _ hlen)).trans
        (List.filter_append_perm _ rest)

theorem findGroups_flatten_perm (images : List ImageInfo) (sim : ℕ → ℕ → Bool) :
    List.Perm ((findGroups images sim).flatten.map Prod.snd) images := by
  rw [findGroups_eq_starSpec]
  have h := (starSpec_flatten_perm sim images.enum.length images.enum le_rfl).map Prod.snd
  rwa [List.enum_map_snd] at h

/-- C1 (amended): as long as no *qualifying* cluster is itself named
`misc_singles`, the mapping covers every input record exactly once,
clusters of size `≥ minGroupSize` become the named groups (in discovery
order), the records of all smaller clusters are pooled into the final
`misc_singles` entry, which is omitted when empty.  (When a qualifying
cluster is named `misc_singles` and small clusters exist, the catch-all
assignment overwrites that group in place and its records are lost — see
the counterexample.) -/
theorem c1_grouping_partition (images : List ImageInfo) (sim : ℕ → ℕ → Bool) (m : ℕ)
    (h : "misc_singles" ∉
      ((groupFold ((findGroups images sim).map (List.map Prod.snd)) m).1.map Prod.fst)) :
    groupSimilarImages images sim m =
      (groupFold ((findGroups images sim).map (List.map Prod.snd)) m).1 ++
        (if (groupFold ((findGroups images sim).map (List.map Prod.snd)) m).2 = [] then []
         else [("misc_singles",
                (groupFold ((findGroups images sim).map (List.map Prod.snd)) m).2)]) ∧
    (groupFold ((findGroups images sim).map (List.map Prod.snd)) m).1.map Prod.snd =
      ((findGroups images sim).map (List.map Prod.snd)).filter
        (fun g => decide (m ≤ g.length)) ∧
    (groupFold ((findGroups images sim).map (List.map Prod.snd)) m).2 =
      (((findGroups images sim).map (List.map Prod.snd)).filter
        (fun g => !decide (m ≤ g.length))).flatten ∧
    List.Perm ((groupSimilarImages images sim m).map Prod.snd).flatten images := by
  set cls := (findGroups images sim).map (List.map Prod.snd) with hcls
  set st := groupFold cls m with hst
  have hspec1 : st.1.map Prod.snd = cls.filter (fun g => decide (m ≤ g.length)) := by
    rw [hst, groupFold]
    simpa using (groupFold_spec m cls ([], [])).1
  have hspec2 : st.2 = (cls.filter (fun g => !decide (m ≤ g.length))).flatten := by
    rw [hst, groupFold]
    simpa using (groupFold_spec m cls ([], [])).2
  have horg : groupSimilarImages images sim m =
      st.1 ++ (if st.2 = [] then [] else [("misc_singles", st.2)]) := by
    rw [groupSimilarImages, organizeGroups, ← hcls, ← hst]
    by_cases hc : st.2 = []
    · rw [if_pos hc, if_pos hc, List.append_nil]
    · rw [if_neg hc, if_neg hc, dictInsert_of_not_mem _ _ _ h]
  refine ⟨horg, hspec1, hspec2, ?_⟩
  rw [horg, List.map_append, List.flatten_append, hspec1]
  have hmisc : ((if st.2 = [] then []
        else [("misc_singles", st.2)]).map Prod.snd).flatten =
      (cls.filter (fun g => !decide (m ≤ g.length))).flatten := by
    by_cases hc : st.2 = []
    · rw [if_pos hc]
      simp only [List.map_nil, List.flatten_nil]
      rw [hc] at hspec2
      exact hspec2
    · rw [if_neg hc]
      simp only [List.map_cons, List.map_nil, List.flatten_cons, List.flatten_nil,
        List.append_nil]
      exact hspec2
  rw [hmisc, ← List.flatten_append]
  have h1 : List.Perm ((cls.filter (fun g => decide (m ≤ g.length)) ++
      cls.filter (fun g => !decide (m ≤ g.length))).flatten) cls.flatten :=
    (List.filter_append_perm _ _).flatten
  have h2 : cls.flatten = ((findGroups images sim).flatten).map Prod.snd := by
    rw [hcls]
    exact (List.map_flatten _ _).symm
  have h3 : List.Perm cls.flatten images := by
    rw [h2]
    exact findGroups_flatten_perm images sim
  exact h1.trans h3

def imgRedCar : ImageInfo :=
  { originalPath := "in/x1.jpg", originalName := "x1.jpg", description := "red car",
    newFilename := "red_car.jpg", width := 64, height := 64, sizeBytes := 100 }

def imgBlueSky : ImageInfo :=
  { originalPath := "in/x2.jpg", originalName := "x2.jpg", description := "blue sky",
    newFilename := "blue_sky.jpg", width := 64, height := 64, sizeBytes := 100 }

theorem c1_witness :
    List.Perm ((groupSimilarImages [imgRedCar, imgBlueSky] (fun _ _ => false) 1).map
      Prod.snd).flatten [imgRedCar, imgBlueSky] :=
  (c1_grouping_partition [imgRedCar, imgBlueSky] (fun _ _ => false) 1 (by decide)).2.2.2

/-! The `misc_singles` overwrite: three identically-described records whose
cluster is *named* `misc_singles`, plus one dissimilar record pooled into
the catch-all.  The catch-all assignment overwrites the named group. -/

def imgMisc0 : ImageInfo :=
  { originalPath := "in/r0.jpg", originalName := "r0.jpg", description := "misc_singles",
    newFilename := "misc_singles.jpg", width := 64, height := 64, sizeBytes := 100 }

def imgMisc1 : ImageInfo :=
  { originalPath := "in/r1.jpg", originalName := "r1.jpg", description := "misc_singles",
    newFilename := "misc_singles.jpg", width := 64, height := 64, sizeBytes := 100 }

def imgMisc2 : ImageInfo :=
  { originalPath := "in/r2.jpg", originalName := "r2.jpg", description := "misc_singles",
    newFilename := "misc_singles.jpg", width := 64, height := 64, sizeBytes := 100 }

def imgOther : ImageInfo :=
  { originalPath := "in/r3.jpg", originalName := "r3.jpg", description := "other",
    newFilename := "other.jpg", width := 64, height := 64, sizeBytes := 100 }

def imgsC1 : List ImageInfo := [imgMisc0, imgMisc1, imgMisc2, imgOther]

/-- Embeddings for the counterexample: the three identical descriptions
share the embedding `[1]`, the fourth gets `[-1]`. -/
noncomputable def embC1 : ℕ → List ℝ := fun i => if i < 3 then [1] else [-1]

theorem cosineSim_single (a b : ℝ) (ha : a * a = 1) (hb : b * b = 1) :
    cosineSim [a] [b] = a * b := by
  rw [cosineSim, normList, normList]
  simp only [dotList, List.zipWith_cons_cons, List.zipWith_nil_right, List.sum_cons,
    List.sum_nil, add_zero, ha, hb, Real.sqrt_one, mul_one]
  rw [div_one]

theorem cosB_embC1 : cosB embC1 (1 / 2) = fun i j => decide ((i < 3) ↔ (j < 3)) := by
  funext i j
  rw [cosB, decide_eq_decide]
  by_cases hi : i < 3 <;> by_cases hj : j < 3
  · simp only [embC1, hi, hj, if_true]
    rw [cosineSim_single 1 1 (by norm_num) (by norm_num)]
    norm_num [hi, hj]
  · simp only [embC1, hi, hj, if_true, if_false]
    rw [cosineSim_single 1 (-1) (by norm_num) (by norm_num)]
    norm_num [hi, hj]
  · simp only [embC1, hi, hj, if_true, if_false]
    rw [cosineSim_single (-1) 1 (by norm_num) (by norm_num)]
    norm_num [hi, hj]
  · simp only [embC1, hi, hj, if_false]
    rw [cosineSim_single (-1) (-1) (by norm_num) (by norm_num)]
    norm_num [hi, hj]

/-- C1 counterexample: with threshold `1/2` and `minGroupSize = 3`, the
three records described `misc_singles` form a qualifying cluster that is
*named* `misc_singles`; the non-empty catch-all (`imgOther`) then
overwrites that entry in place, so the mapping's only entry is
`misc_singles ↦ [imgOther]`: the three qualifying records are covered
zero times, refuting the partition clause of the claim as stated. -/
theorem c1_counterexample :
    groupSimilarImagesCos imgsC1 embC1 (1 / 2) 3 = [("misc_singles", [imgOther])] ∧
    imgsC1.length = 4 ∧
    imgMisc0 ∉ ((groupSimilarImagesCos imgsC1 embC1 (1 / 2) 3).map Prod.snd).flatten := by
  rw [groupSimilarImagesCos, cosB_embC1]
  refine ⟨by decide, by decide, by decide⟩

/-! ### C5 — file placement inside one group -/

theorem lexLe_nil (b : List Char) : lexLe [] b = true := rfl

theorem lexLe_trans :
    ∀ (a b c : List Char), lexLe a b = true → lexLe b c = true → lexLe a c = true := by
  intro a
  induction a with
  | nil => intro b c _ _; rfl
  | cons x xs ih =>
    intro b c hab hbc
    match b, c with
    | [], _ => exact absurd hab (by simp [lexLe])
    | y :: ys, [] => exact absurd hbc (by simp [lexLe])
    | y :: ys, z :: zs =>
      rw [lexLe] at hab hbc ⊢
      by_cases hxy : x < y
      · by_cases hyz : y < z
        · rw [if_pos (lt_trans hxy hyz)]
        · by_cases hzy : z < y
          · rw [if_neg hyz, if_pos hzy] at hbc
            exact absurd hbc (by simp)
          · have heq : y = z := le_antisymm (not_lt.mp hzy) (not_lt.mp hyz)
            rw [if_pos (heq ▸ hxy)]
      · by_cases hyx : y < x
        · rw [if_neg hxy, if_pos hyx] at hab
          exact absurd hab (by simp)
        · have hxy' : x = y := le_antisymm (not_lt.mp hyx) (not_lt.mp hxy)
          rw [if_neg hxy, if_neg hyx] at hab
          by_cases hyz : y < z
          · rw [if_pos (hxy' ▸ hyz)]
          · by_cases hzy : z < y
            · rw [if_neg hyz, if_pos hzy] at hbc
              exact absurd hbc (by simp)
            · have hyz' : y = z := le_antisymm (not_lt.mp hzy) (not_lt.mp hyz)
              have hxz : x = z := hxy'.trans hyz'
              rw [if_neg hyz, if_neg hzy] at hbc
              rw [if_neg (by rw [hxz]; exact lt_irrefl z),
                if_neg (by rw [hxz]; exact lt_irrefl z)]
              exact ih ys zs hab hbc

theorem lexLe_total : ∀ (a b : List Char), lexLe a b = true ∨ lexLe b a = true := by
  intro a
  induction a with
  | nil => intro b; exact Or.inl rfl
  | cons x xs ih =>
    intro b
    match b with
    | [] => exact Or.inr rfl
    | y :: ys =>
      rw [lexLe, lexLe]
      rcases lt_trichotomy x y with h | h | h
      · left
        rw [if_pos h]
      · subst h
        simp only [if_neg (lt_irrefl x)]
        exact ih ys
      · right
        rw [if_pos h]

theorem mem_insertByName {x q : ImageInfo} {l : List ImageInfo} :
    q ∈ insertByName x l ↔ q = x ∨ q ∈ l := by
  induction l with
  | nil => simp [insertByName]
  | cons y tl ih =>
    rw [insertByName]
    by_cases h : lexLe x.originalName.data y.originalName.data
    · rw [if_pos h]
      simp [List.mem_cons]
    · rw [if_neg h, List.mem_cons, ih, List.mem_cons]
      tauto

theorem insertByName_perm (x : ImageInfo) (l : List ImageInfo) :
    List.Perm (insertByName x l) (x :: l) := by
  induction l with
  | nil => exact List.Perm.refl _
  | cons y tl ih =>
    rw [insertByName]
    by_cases h : lexLe x.originalName.data y.originalName.data
    · rw [if_pos h]
    · rw [if_neg h]
      exact (ih.cons y).trans (List.Perm.swap x y tl)

theorem sortByName_perm (l : List ImageInfo) : List.Perm (sortByName l) l := by
  induction l with
  | nil => exact List.Perm.refl _
  | cons x tl ih => exact (insertByName_perm x (sortByName tl)).trans (ih.cons x)

theorem insertByName_pairwise (x : ImageInfo) (l : List ImageInfo)
    (hl : l.Pairwise (fun a b : ImageInfo =>
      lexLe a.originalName.data b.originalName.data = true)) :
    (insertByName x l).Pairwise (fun a b : ImageInfo =>
      lexLe a.originalName.data b.originalName.data = true) := by
  induction l with
  | nil => simp [insertByName]
  | cons y tl ih =>
    rw [List.pairwise_cons] at hl
    obtain ⟨hy, htl⟩ := hl
    rw [insertByName]
    by_cases h : lexLe x.originalName.data y.originalName.data
    · rw [if_pos h, List.pairwise_cons]
      refine ⟨?_, List.pairwise_cons.mpr ⟨hy, htl⟩⟩
      intro r hr
      rcases List.mem_cons.mp hr with rfl | hr
      · exact h
      · exact lexLe_trans _ _ _ h (hy r hr)
    · rw [if_neg h, List.pairwise_cons]
      have hyx : lexLe y.originalName.data x.originalName.data = true :=
        (lexLe_total _ _).resolve_left (by simpa using h)
      refine ⟨?_, ih htl⟩
      intro r hr
      rcases mem_insertByName.mp hr with rfl | hr
      · exact hyx
      · exact hy r hr

theorem sortByName_pairwise (l : List ImageInfo) :
    (sortByName l).Pairwise (fun a b : ImageInfo =>
      lexLe a.originalName.data b.originalName.data = true) := by
  induction l with
  | nil => simp [sortByName]
  | cons x tl ih => exact insertByName_pairwise x (sortByName tl) ih

/-- C5: a group with more than one member is sorted by original filename
(stably, ascending in code-point order) and its members are renamed
`<baseName>_<2-digit sequence><originalExtension>` in sort order starting
at 1, where `baseName` joins the first 4 words of the sorted-first member's
description — overriding each member's `candidateFilename`; a single-member
group keeps that member's `candidateFilename` (`new_filename`). -/
theorem c5_organize_naming :
    (∀ g : List ImageInfo, 2 ≤ g.length →
      groupPlacements g = (sortByName g).enum.map (fun q =>
        (q.2.originalPath,
         (⟨joinSep '_' (((pySplit (match sortByName g with
              | s :: _ => s.description
              | [] => "")).take 4).map String.data)⟩ : String) ++ "_" ++
           pad2 (q.1 + 1) ++ pathSuffix q.2.originalPath))) ∧
    (∀ im : ImageInfo, groupPlacements [im] = [(im.originalPath, im.newFilename)]) ∧
    (∀ g : List ImageInfo, List.Perm (sortByName g) g ∧
      (sortByName g).Pairwise (fun a b : ImageInfo =>
        lexLe a.originalName.data b.originalName.data = true)) := by
  refine ⟨?_, ?_, fun g => ⟨sortByName_perm g, sortByName_pairwise g⟩⟩
  · intro g hg
    match g with
    | [] => simp at hg
    | [im] => simp at hg
    | im1 :: im2 :: rest =>
      rw [groupPlacements, if_neg (by simp)]
  · intro im
    rw [groupPlacements, if_pos rfl]

theorem c5_witness :
    groupPlacements [imgMisc1, imgMisc0] =
      (sortByName [imgMisc1, imgMisc0]).enum.map (fun q =>
        (q.2.originalPath,
         (⟨joinSep '_' (((pySplit (match sortByName [imgMisc1, imgMisc0] with
              | s :: _ => s.description
              | [] => "")).take 4).map String.data)⟩ : String) ++ "_" ++
           pad2 (q.1 + 1) ++ pathSuffix q.2.originalPath)) :=
  c5_organize_naming.1 [imgMisc1, imgMisc0] (by decide)
theorem jobTrace_empty (env : JobEnv) (hn : (jobFiles env).length = 0) :
    jobTrace env =
      [initialJob,
       { initialJob with status := JobStatus.running },
       { initialJob with status := JobStatus.running },
       { initialJob with status := JobStatus.error, error := some noImagesMsg }] := by
  rw [jobTrace]
  simp only [hn, if_pos]
  rfl

theorem jobTrace_success (env : JobEnv) (hn : (jobFiles env).length ≠ 0)
    (he : env.embedFail = false) (ho : env.organizeFail = false) :
    jobTrace env =
      [initialJob,
       { initialJob with status := JobStatus.running },
       { initialJob with status := JobStatus.running,
                         totalImages := (jobFiles env).length }] ++
      (List.range (jobFiles env).length).map (fun i =>
        { status := JobStatus.running,
          progress := 50 * (i : ℚ) / ((jobFiles env).length : ℚ),
          totalImages := (jobFiles env).length,
          processedImages := i,
          currentFile := fileBase ((jobFiles env).getD i ""),
          results := none, error := none }) ++
      [{ status := JobStatus.running, progress := 50,
         totalImages := (jobFiles env).length,
         processedImages := (jobFiles env).length - 1,
         currentFile := "Grouping similar images...",
         results := none, error := none },
       { status := JobStatus.running, progress := 75,
         totalImages := (jobFiles env).length,
         processedImages := (jobFiles env).length - 1,
         currentFile := "Organizing files...",
         results := none, error := none },
       { status := JobStatus.completed, progress := 100,
         totalImages := (jobFiles env).length,
         processedImages := (jobFiles env).length - 1,
         currentFile := "Complete!",
         results := some { totalImages := (processedRecords env).length,
                           groupsCreated := (jobGroups env).length,
                           groupSizes := (jobGroups env).map (fun p => (p.1, p.2.length)) },
         error := none }] := by
  rw [jobTrace]
  simp only [if_neg hn, he, ho, Bool.false_eq_true, if_false]
  congr 1
  congr 1
  · apply List.map_congr_left
    intro i _
    congr 1
    ring

theorem jobTrace_embedFail (env : JobEnv) (hn : (jobFiles env).length ≠ 0)
    (he : env.embedFail = true) :
    jobTrace env =
      [initialJob,
       { initialJob with status := JobStatus.running },
       { initialJob with status := JobStatus.running,
                         totalImages := (jobFiles env).length }] ++
      (List.range (jobFiles env).length).map (fun i =>
        { status := JobStatus.running,
          progress := (i : ℚ) / ((jobFiles env).length : ℚ) * 50,
          totalImages := (jobFiles env).length,
          processedImages := i,
          currentFile := fileBase ((jobFiles env).getD i ""),
          results := none, error := none }) ++
      [{ status := JobStatus.running, progress := 50,
         totalImages := (jobFiles env).length,
         processedImages := (jobFiles env).length - 1,
         currentFile := "Grouping similar images...",
         results := none, error := none },
       { status := JobStatus.error, progress := 50,
         totalImages := (jobFiles env).length,
         processedImages := (jobFiles env).length - 1,
         currentFile := "Grouping similar images...",
         results := none, error := some env.errMsg }] := by
  rw [jobTrace]
  simp only [if_neg hn, he, if_true]
  rfl

theorem jobTrace_organizeFail (env : JobEnv) (hn : (jobFiles env).length ≠ 0)
    (he : env.embedFail = false) (ho : env.organizeFail = true) :
    jobTrace env =
      [initialJob,
       { initialJob with status := JobStatus.running },
       { initialJob with status := JobStatus.running,
                         totalImages := (jobFiles env).length }] ++
      (List.range (jobFiles env).length).map (fun i =>
        { status := JobStatus.running,
          progress := (i : ℚ) / ((jobFiles env).length : ℚ) * 50,
          totalImages := (jobFiles env).length,
          processedImages := i,
          currentFile := fileBase ((jobFiles env).getD i ""),
          results := none, error := none }) ++
      [{ status := JobStatus.running, progress := 50,
         totalImages := (jobFiles env).length,
         processedImages := (jobFiles env).length - 1,
         currentFile := "Grouping similar images...",
         results := none, error := none },
       { status := JobStatus.running, progress := 75,
         totalImages := (jobFiles env).length,
         processedImages := (jobFiles env).length - 1,
         currentFile := "Organizing files...",
         results := none, error := none },
       { status := JobStatus.error, progress := 75,
         totalImages := (jobFiles env).length,
         processedImages := (jobFiles env).length - 1,
         currentFile := "Organizing files...",
         results := none, error := some env.errMsg }] := by
  rw [jobTrace]
  simp only [if_neg hn, he, ho, Bool.false_eq_true, if_false, if_true]
  rfl

theorem descProg_nonneg (n i : ℕ) : (0 : ℚ) ≤ (i : ℚ) / (n : ℚ) * 50 := by positivity

theorem descProg_le50 {n i : ℕ} (h : i < n) : (i : ℚ) / (n : ℚ) * 50 ≤ 50 := by
  have hn : (0 : ℚ) < (n : ℚ) := by exact_mod_cast Nat.zero_lt_of_lt h
  have h1 : (i : ℚ) / (n : ℚ) ≤ 1 := by
    rw [div_le_one hn]
    exact_mod_cast h.le
  nlinarith

theorem descProg_mono {n a b : ℕ} (h : a ≤ b) :
    (a : ℚ) / (n : ℚ) * 50 ≤ (b : ℚ) / (n : ℚ) * 50 := by
  rcases Nat.eq_zero_or_pos n with rfl | hn
  · simp
  · have hQ : (0 : ℚ) < (n : ℚ) := by exact_mod_cast hn
    have hab : (a : ℚ) ≤ (b : ℚ) := by exact_mod_cast h
    exact mul_le_mul_of_nonneg_right ((div_le_div_iff_of_pos_right hQ).mpr hab) (by norm_num)

theorem trace_progress_pairwise (n : ℕ) (f : ℕ → ℚ)
    (hf : ∀ i, f i = (i : ℚ) / (n : ℚ) * 50) (tail : List ℚ)
    (htail : tail.Pairwise (· ≤ ·)) (htail50 : ∀ x ∈ tail, 50 ≤ x) :
    (([(0 : ℚ), 0, 0] ++ (List.range n).map f) ++ tail).Pairwise (· ≤ ·) := by
  rw [List.pairwise_append]
  refine ⟨?_, htail, ?_⟩
  · rw [List.pairwise_append]
    refine ⟨by decide, ?_, ?_⟩
    · refine List.Pairwise.map f ?_ (List.pairwise_lt_range n)
      intro a b hab
      rw [hf a, hf b]
      exact descProg_mono hab.le
    · intro a ha b hb
      obtain ⟨i, _, rfl⟩ := List.mem_map.mp hb
      rw [hf i]
      have h0 : a = 0 := by simpa using ha
      rw [h0]
      exact descProg_nonneg n i
  · intro a ha x hx
    have h50 := htail50 x hx
    rcases List.mem_append.mp ha with h | h
    · have h0 : a = 0 := by simpa using h
      rw [h0]
      linarith
    · obtain ⟨i, hi, rfl⟩ := List.mem_map.mp h
      rw [hf i]
      have := descProg_le50 (List.mem_range.mp hi)
      linarith

/-- C7: over a job's lifetime the progress values written (and hence
observable by any sequence of status reads) are monotonically
non-decreasing, on every path — empty input, embedding failure, organize
failure, success — and progress equals 100 only in a state whose status is
Completed. -/
theorem c7_progress_monotone (env : JobEnv) :
    ((jobTrace env).map (fun s => s.progress)).Pairwise (· ≤ ·) ∧
    ∀ s ∈ jobTrace env, s.progress = 100 → s.status = JobStatus.completed := by
  by_cases hn : (jobFiles env).length = 0
  · rw [jobTrace_empty env hn]
    constructor
    · decide
    · intro s hs h100
      simp only [List.mem_cons, List.not_mem_nil, or_false] at hs
      rcases hs with rfl | rfl | rfl | rfl <;> exact absurd h100 (by norm_num [initialJob])
  · by_cases he : env.embedFail = true
    · rw [jobTrace_embedFail env hn he]
      constructor
      · simp only [List.map_append, List.map_cons, List.map_nil, List.map_map]
        refine trace_progress_pairwise (jobFiles env).length _ (fun i => rfl) _ ?_ ?_
        · decide
        · intro x hx
          simp only [List.mem_cons, List.not_mem_nil, or_false] at hx
          rcases hx with rfl | rfl <;> norm_num
      · intro s hs h100
        rcases List.mem_append.mp hs with h | htail
        · rcases List.mem_append.mp h with hh | hd
          · have h0 : s.progress = 0 := by
              simp only [List.mem_cons, List.not_mem_nil, or_false] at hh
              rcases hh with rfl | rfl | rfl <;> rfl
            rw [h0] at h100
            exact absurd h100 (by norm_num)
          · obtain ⟨i, hi, rfl⟩ := List.mem_map.mp hd
            have hle := descProg_le50 (List.mem_range.mp hi)
            have h' : (i : ℚ) / ((jobFiles env).length : ℚ) * 50 = 100 := h100
            linarith
        · have h50 : s.progress = 50 := by
            simp only [List.mem_cons, List.not_mem_nil, or_false] at htail
            rcases htail with rfl | rfl <;> rfl
          rw [h50] at h100
          exact absurd h100 (by norm_num)
    · have he' : env.embedFail = false := by simpa using he
      by_cases ho : env.organizeFail = true
      · rw [jobTrace_organizeFail env hn he' ho]
        constructor
        · simp only [List.map_append, List.map_cons, List.map_nil, List.map_map]
          refine trace_progress_pairwise (jobFiles env).length _ (fun i => rfl) _ ?_ ?_
          · decide
          · intro x hx
            simp only [List.mem_cons, List.not_mem_nil, or_false] at hx
            rcases hx with rfl | rfl | rfl <;> norm_num
        · intro s hs h100
          rcases List.mem_append.mp hs with h | htail
          · rcases List.mem_append.mp h with hh | hd
            · have h0 : s.progress = 0 := by
                simp only [List.mem_cons, List.not_mem_nil, or_false] at hh
                rcases hh with rfl | rfl | rfl <;> rfl
              rw [h0] at h100
              exact absurd h100 (by norm_num)
            · obtain ⟨i, hi, rfl⟩ := List.mem_map.mp hd
              have hle := descProg_le50 (List.mem_range.mp hi)
              have h' : (i : ℚ) / ((jobFiles env).length : ℚ) * 50 = 100 := h100
              linarith
          · have h57 : s.progress = 50 ∨ s.progress = 75 := by
              simp only [List.mem_cons, List.not_mem_nil, or_false] at htail
              rcases htail with rfl | rfl | rfl
              · exact Or.inl rfl
              · exact Or.inr rfl
              · exact Or.inr rfl
            rcases h57 with h' | h' <;> rw [h'] at h100 <;> exact absurd h100 (by norm_num)
      · have ho' : env.organizeFail = false := by simpa using ho
        rw [jobTrace_success env hn he' ho']
        constructor
        · simp only [List.map_append, List.map_cons, List.map_nil, List.map_map]
          refine trace_progress_pairwise (jobFiles env).length _ (fun i => by
            show (50 : ℚ) * (i : ℚ) / ((jobFiles env).length : ℚ) =
              (i : ℚ) / ((jobFiles env).length : ℚ) * 50
            ring) _ ?_ ?_
          · decide
          · intro x hx
            simp only [List.mem_cons, List.not_mem_nil, or_false] at hx
            rcases hx with rfl | rfl | rfl <;> norm_num
        · intro s hs h100
          rcases List.mem_append.mp hs with h | htail
          · rcases List.mem_append.mp h with hh | hd
            · have h0 : s.progress = 0 := by
                simp only [List.mem_cons, List.not_mem_nil, or_false] at hh
                rcases hh with rfl | rfl | rfl <;> rfl
              rw [h0] at h100
              exact absurd h100 (by norm_num)
            · obtain ⟨i, hi, rfl⟩ := List.mem_map.mp hd
              have hle := descProg_le50 (List.mem_range.mp hi)
              have h' : (50 : ℚ) * (i : ℚ) / ((jobFiles env).length : ℚ) = 100 := h100
              have h'' : (i : ℚ) / ((jobFiles env).length : ℚ) * 50 = 100 := by
                rw [← h']
                ring
              linarith
          · simp only [List.mem_cons, List.not_mem_nil, or_false] at htail
            rcases htail with rfl | rfl | rfl
            · exact absurd h100 (by norm_num)
            · exact absurd h100 (by norm_num)
            · rfl

/-- C6: the write blocks of a successful run, in order: Pending at
creation, Running, the image count, then one write per description-loop
iteration — the write made when exactly `i` files have been processed
(i.e. after each file, and before the next one starts) sets
`progress = 50 * i / n` and `processedImages = i` — then `progress = 50`
before grouping starts, `progress = 75` before organizing starts, and
`progress = 100` together with status Completed on success. -/
theorem c6_progress_stages (env : JobEnv) (hn : (jobFiles env).length ≠ 0)
    (he : env.embedFail = false) (ho : env.organizeFail = false) :
    jobTrace env =
      [initialJob,
       { initialJob with status := JobStatus.running },
       { initialJob with status := JobStatus.running,
                         totalImages := (jobFiles env).length }] ++
      (List.range (jobFiles env).length).map (fun i =>
        { status := JobStatus.running,
          progress := 50 * (i : ℚ) / ((jobFiles env).length : ℚ),
          totalImages := (jobFiles env).length,
          processedImages := i,
          currentFile := fileBase ((jobFiles env).getD i ""),
          results := none, error := none }) ++
      [{ status := JobStatus.running, progress := 50,
         totalImages := (jobFiles env).length,
         processedImages := (jobFiles env).length - 1,
         currentFile := "Grouping similar images...",
         results := none, error := none },
       { status := JobStatus.running, progress := 75,
         totalImages := (jobFiles env).length,
         processedImages := (jobFiles env).length - 1,
         currentFile := "Organizing files...",
         results := none, error := none },
       { status := JobStatus.completed, progress := 100,
         totalImages := (jobFiles env).length,
         processedImages := (jobFiles env).length - 1,
         currentFile := "Complete!",
         results := some { totalImages := (processedRecords env).length,
                           groupsCreated := (jobGroups env).length,
                           groupSizes := (jobGroups env).map (fun p => (p.1, p.2.length)) },
         error := none }] :=
  jobTrace_success env hn he ho

def envC6 : JobEnv :=
  { allFiles := ["a.jpg", "b.jpg"], outputFolder := "out", copyFiles := true,
    minGroupSize := 3, sim := fun _ _ => true, perImage := fun _ => none,
    embedFail := false, organizeFail := false, errMsg := "" }

theorem c6_witness :
    jobTrace envC6 =
      [initialJob,
       { initialJob with status := JobStatus.running },
       { initialJob with status := JobStatus.running,
                         totalImages := (jobFiles envC6).length }] ++
      (List.range (jobFiles envC6).length).map (fun i =>
        { status := JobStatus.running,
          progress := 50 * (i : ℚ) / ((jobFiles envC6).length : ℚ),
          totalImages := (jobFiles envC6).length,
          processedImages := i,
          currentFile := fileBase ((jobFiles envC6).getD i ""),
          results := none, error := none }) ++
      [{ status := JobStatus.running, progress := 50,
         totalImages := (jobFiles envC6).length,
         processedImages := (jobFiles envC6).length - 1,
         currentFile := "Grouping similar images...",
         results := none, error := none },
       { status := JobStatus.running, progress := 75,
         totalImages := (jobFiles envC6).length,
         processedImages := (jobFiles envC6).length - 1,
         currentFile := "Organizing files...",
         results := none, error := none },
       { status := JobStatus.completed, progress := 100,
         totalImages := (jobFiles envC6).length,
         processedImages := (jobFiles envC6).length - 1,
         currentFile := "Complete!",
         results := some { totalImages := (processedRecords envC6).length,
                           groupsCreated := (jobGroups envC6).length,
                           groupSizes := (jobGroups envC6).map (fun p => (p.1, p.2.length)) },
         error := none }] :=
  c6_progress_stages envC6 (by decide) rfl rfl

/-- C9: a job whose input folder contains no matching image files makes
exactly four writes — Pending, Running, `totalImages = 0`, then the
terminal failure state carrying the no-images error — so no later phase
runs, there is no retry, and no filesystem effect (in particular the
output folder is never created). -/
theorem c9_no_images (env : JobEnv) (hn : jobFiles env = []) :
    jobTrace env =
      [initialJob,
       { initialJob with status := JobStatus.running },
       { initialJob with status := JobStatus.running },
       { initialJob with status := JobStatus.error, error := some noImagesMsg }] ∧
    (jobTrace env).getLast? =
      some { initialJob with status := JobStatus.error, error := some noImagesMsg } ∧
    jobPlan env = none := by
  have hn' : (jobFiles env).length = 0 := by rw [hn]; rfl
  refine ⟨jobTrace_empty env hn', ?_, ?_⟩
  · rw [jobTrace_empty env hn']
    rfl
  · rw [jobPlan, if_pos hn']

def envC9 : JobEnv :=
  { allFiles := ["readme.txt"], outputFolder := "out", copyFiles := true,
    minGroupSize := 3, sim := fun _ _ => true, perImage := fun _ => none,
    embedFail := false, organizeFail := false, errMsg := "" }

theorem c9_witness :
    jobTrace envC9 =
      [initialJob,
       { initialJob with status := JobStatus.running },
       { initialJob with status := JobStatus.running },
       { initialJob with status := JobStatus.error, error := some noImagesMsg }] ∧
    (jobTrace envC9).getLast? =
      some { initialJob with status := JobStatus.error, error := some noImagesMsg } ∧
    jobPlan envC9 = none :=
  c9_no_images envC9 (by decide)

/-- C10 (implicit behaviour): when at least one image file is discovered
but every file's per-image processing fails (each one is skipped), the job
does not fail: the grouping of the empty record set and the organizing of
the empty mapping run, the output folder is still created (and nothing
else), and the job reaches Completed with results reporting 0 images, 0
groups and no `misc_singles` entry. -/
theorem c10_all_skipped (env : JobEnv) (hn : (jobFiles env).length ≠ 0)
    (hskip : ∀ i, env.perImage i = none)
    (he : env.embedFail = false) (ho : env.organizeFail = false) :
    processedRecords env = [] ∧
    jobGroups env = [] ∧
    (jobTrace env).getLast? = some
      { status := JobStatus.completed, progress := 100,
        totalImages := (jobFiles env).length,
        processedImages := (jobFiles env).length - 1,
        currentFile := "Complete!",
        results := some { totalImages := 0, groupsCreated := 0, groupSizes := [] },
        error := none } ∧
    jobPlan env = some { dirsCreated := [env.outputFolder], fileOps := [] } := by
  have hrec : processedRecords env = [] := by
    rw [processedRecords]
    simp [hskip]
  have hgr : jobGroups env = [] := by
    rw [jobGroups, hrec]
    rfl
  refine ⟨hrec, hgr, ?_, ?_⟩
  · rw [jobTrace_success env hn he ho]
    simp only [List.getLast?_append]
    rw [hrec, hgr]
    rfl
  · rw [jobPlan, if_neg hn, if_neg (by simp [he]), if_neg (by simp [ho]), hgr]
    rfl

def envC10 : JobEnv :=
  { allFiles := ["a.jpg"], outputFolder := "out", copyFiles := true,
    minGroupSize := 3, sim := fun _ _ => true, perImage := fun _ => none,
    embedFail := false, organizeFail := false, errMsg := "" }

theorem c10_witness :
    processedRecords envC10 = [] ∧
    jobGroups envC10 = [] ∧
    (jobTrace envC10).getLast? = some
      { status := JobStatus.completed, progress := 100,
        totalImages := (jobFiles envC10).length,
        processedImages := (jobFiles envC10).length - 1,
        currentFile := "Complete!",
        results := some { totalImages := 0, groupsCreated := 0, groupSizes := [] },
        error := none } ∧
    jobPlan envC10 = some { dirsCreated := [envC10.outputFolder], fileOps := [] } :=
  c10_all_skipped envC10 (by decide) (fun _ => rfl) rfl rfl

theorem c7_witness :
    ((jobTrace envC6).map (fun s => s.progress)).Pairwise (· ≤ ·) :=
  (c7_progress_monotone envC6).1
